import Mathlib

/-!
# Verification of the Chanlun bar-processing pipeline

Shallow embedding of `chanlun_processor.py` (class `ChanlunProcessor`):
the trimmer (`trim_data_by_extremes`), the containment merger
(`merge_klines` with `check_inclusion` / `determine_direction`), the
fractal identifier (`identify_fractals`), the five filter passes
(`filter_fractals_by_extremes`, `filter_consecutive_fractals`,
`validate_fractal_relationships`, `filter_close_fractals`), the driver
(`process_fractals`, `process_klines`) and the stroke builder
(`identify_segments`).

Prices are embedded as `Int` (the source only ever compares and takes
max/min of them).  Pandas frames become lists of records; the two mark
columns `is_fractal` / `fractal_type` are embedded as two fields so that
their consistency is a provable statement rather than true by
construction.  Python code that raises is embedded in `Except`.
-/

namespace Chanlun

/-- Direction of a structural bar ("up" / "down" strings in the source). -/
inductive Dir where
  | up
  | down
deriving DecidableEq, Repr

/-- Fractal type ("top" / "bottom" strings in the source). -/
inductive FT where
  | top
  | bottom
deriving DecidableEq, Repr

/-- A raw OHLCV bar (one row of the input DataFrame). -/
structure RawBar where
  datetime : Int
  open_p : Int
  high : Int
  low : Int
  close : Int
  volume : Int
  amount : Int
deriving DecidableEq, Repr

/-- A structural (chanlun) bar as emitted by `merge_klines`.  The
`direction` column is `none` on the short-input path where the source
returns the raw frame unchanged (no `direction` column), and is also
`none` when the Python `initial_direction` attribute is `None`. -/
structure SBar where
  datetime : Int
  open_p : Int
  high : Int
  low : Int
  close : Int
  volume : Int
  amount : Int
  direction : Option Dir
deriving DecidableEq, Repr

/-- A structural bar together with its two fractal mark columns
(`is_fractal`, `fractal_type`).  The filter passes read and write only
these two fields plus the static prices. -/
structure MBar where
  datetime : Int
  high : Int
  low : Int
  isF : Bool
  ft : Option FT
deriving DecidableEq, Repr

/-! ## Trimmer: `trim_data_by_extremes` -/

/-- Input frame of the trimmer: the raw rows plus presence flags for the
three required columns checked at the top of `trim_data_by_extremes`. -/
structure TrimIn where
  hasDatetime : Bool
  hasHigh : Bool
  hasLow : Bool
  bars : List RawBar
deriving DecidableEq, Repr

/-- Result of the trimmer: the (possibly prefix-dropped) rows plus the
seed direction (`self.initial_direction`), `none` when the source leaves
it unset. -/
structure TrimOut where
  bars : List RawBar
  seed : Option Dir
deriving DecidableEq, Repr

/-- Python `max` over a nonempty list (used for `df['high'].idxmax` via
"first index attaining the max"). -/
def py_max : List Int → Int
  | [] => 0
  | x :: xs => xs.foldl max x

/-- Python `min` over a nonempty list. -/
def py_min : List Int → Int
  | [] => 0
  | x :: xs => xs.foldl min x

/-- `trim_data_by_extremes`: locate the first bar attaining the maximum
high and the first bar attaining the minimum low (pandas `idxmax` /
`idxmin` break ties on the earliest index), keep everything from the
earlier of the two datetimes on, and record the seed direction (`down`
iff the earlier extreme is the high).  On empty input the source prints
and returns an empty frame; on a missing required column it prints and
returns the input unchanged; in both cases `initial_direction` is not
set. -/
def trim_data_by_extremes (inp : TrimIn) : TrimOut :=
  if inp.bars = [] then
    ⟨[], none⟩
  else if ¬(inp.hasDatetime = true ∧ inp.hasHigh = true ∧ inp.hasLow = true) then
    ⟨inp.bars, none⟩
  else
    let highs := inp.bars.map (·.high)
    let lows := inp.bars.map (·.low)
    let iH := inp.bars.findIdx (fun b => b.high = py_max highs)
    let iL := inp.bars.findIdx (fun b => b.low = py_min lows)
    let dtH : Int := (inp.bars[iH]?.map (·.datetime)).getD 0
    let dtL : Int := (inp.bars[iL]?.map (·.datetime)).getD 0
    let earlierDt : Int := min dtH dtL
    let seed := if earlierDt = dtH then Dir.down else Dir.up
    let earlierIdx := inp.bars.findIdx (fun b => b.datetime = earlierDt)
    ⟨inp.bars.drop earlierIdx, some seed⟩

/-- The trimmer's body contains no `raise` and every operation it
performs is total on the paths above, so as a Python call it always
returns normally; `Except` records that no exception escapes. -/
def trim_call (inp : TrimIn) : Except String TrimOut :=
  Except.ok (trim_data_by_extremes inp)

/-! ## Merger: `check_inclusion`, `determine_direction`, `merge_klines` -/

/-- `check_inclusion` on the high/low fields of two bars: true iff one
bar's range covers the other's (the source additionally returns which
bar contains which, but the merge step only ever takes max/min over both
bars, which is symmetric in that information). -/
def check_inclusion (h1 l1 h2 l2 : Int) : Bool :=
  (decide (h1 ≥ h2) && decide (l1 ≤ l2)) || (decide (h2 ≥ h1) && decide (l2 ≤ l1))

/-- `determine_direction`: the already-emitted chanlun bars are
accumulated in reverse, so the head is the source's `chanlun_klines[-1]`
and the second entry is `chanlun_klines[-2]`.  With fewer than two
emitted bars the seed (`self.initial_direction`, possibly `None`) is
returned. -/
def determine_direction (emittedRev : List SBar) (seed : Option Dir) : Option Dir :=
  match emittedRev with
  | [] => seed
  | [_] => seed
  | b :: a :: _ =>
    if b.high > a.high then some Dir.up
    else if b.low < a.low then some Dir.down
    else b.direction

/-- Convert a raw row into a structural-bar record with no `direction`
column (the `len(df) < 2` path of `merge_klines` returns `df.copy()`). -/
def raw_to_sbar (r : RawBar) : SBar :=
  ⟨r.datetime, r.open_p, r.high, r.low, r.close, r.volume, r.amount, none⟩

/-- One merge step of `merge_klines`: the candidate keeps its original
datetime and open, takes max of highs and max of lows when the direction
is `"up"` and min of both otherwise (the Python `if ... == "up"` sends a
`None` direction to the `down` branch), takes the new bar's close, and
accumulates volume and amount. -/
def merge_step (d : Option Dir) (c : SBar) (r : RawBar) : SBar :=
  if d = some Dir.up then
    { c with high := max c.high r.high, low := max c.low r.low,
             close := r.close, volume := c.volume + r.volume,
             amount := c.amount + r.amount }
  else
    { c with high := min c.high r.high, low := min c.low r.low,
             close := r.close, volume := c.volume + r.volume,
             amount := c.amount + r.amount }

/-- The inner `while j < len(df)` loop: keep absorbing raw bars into the
candidate while the candidate and the next raw bar are in containment;
the direction is recomputed from the emitted bars each step (they do not
change during the loop).  Returns the final candidate and the remaining
raw bars. -/
def merge_group (emittedRev : List SBar) (seed : Option Dir) :
    SBar → List RawBar → SBar × List RawBar
  | c, [] => (c, [])
  | c, r :: rs =>
    if check_inclusion c.high c.low r.high r.low then
      merge_group emittedRev seed
        (merge_step (determine_direction emittedRev seed) c r) rs
    else (c, r :: rs)

/-- The outer `while i < len(df)` loop of `merge_klines`.  The `fuel`
argument only bounds the number of outer iterations so that the
recursion is structural: each iteration consumes at least the raw bar
that starts the group, so `merge_klines` passing the row count as fuel
never reaches the exhausted-fuel branch. -/
def merge_main (seed : Option Dir) : Nat → List SBar → List RawBar → List SBar
  | _, emittedRev, [] => emittedRev.reverse
  | 0, emittedRev, _ :: _ => emittedRev.reverse
  | fuel + 1, emittedRev, r :: rs =>
    let p := merge_group emittedRev seed (raw_to_sbar r) rs
    merge_main seed fuel
      ({ p.1 with direction := determine_direction emittedRev seed } :: emittedRev) p.2

/-- `merge_klines`: on fewer than two rows the source returns the frame
unchanged (so no `direction` column); otherwise it folds the containment
merge over the rows. -/
def merge_klines (seed : Option Dir) (df : List RawBar) : List SBar :=
  if df.length < 2 then df.map raw_to_sbar
  else merge_main seed df.length [] df

/-- Non-containment of adjacent structural bars, the invariant the spec
claims for the merger's output. -/
def adjacent_free : List SBar → Bool
  | [] => true
  | [_] => true
  | a :: b :: rest =>
    !check_inclusion a.high a.low b.high b.low && adjacent_free (b :: rest)

/-! ## Fractal identifier: `check_top_fractal`, `check_bottom_fractal`,
`identify_fractals` -/

/-- High price of the bar at index `i` (indexing in the source is always
in range; out-of-range defaults never arise on the guarded paths). -/
def high_at (l : List MBar) (i : Nat) : Int :=
  ((l[i]?).map (·.high)).getD 0

/-- Low price of the bar at index `i`. -/
def low_at (l : List MBar) (i : Nat) : Int :=
  ((l[i]?).map (·.low)).getD 0

/-- `check_top_fractal`: the middle bar of a 3-bar window has the
strictly highest high; indices without both neighbours return false. -/
def check_top_fractal (l : List MBar) (i : Nat) : Bool :=
  if i < 1 ∨ i + 1 ≥ l.length then false
  else decide (high_at l i > high_at l (i - 1)) &&
       decide (high_at l i > high_at l (i + 1))

/-- `check_bottom_fractal`: the middle bar has the strictly lowest low. -/
def check_bottom_fractal (l : List MBar) (i : Nat) : Bool :=
  if i < 1 ∨ i + 1 ≥ l.length then false
  else decide (low_at l i < low_at l (i - 1)) &&
       decide (low_at l i < low_at l (i + 1))

/-- The mark `identify_fractals` writes at index `i`: the first bar gets
the seed mark (top when the initial direction is down, bottom when up,
nothing when unset); later bars are checked as top first, then bottom
(`if is_top ... elif is_bottom`); both columns are written together,
starting from the freshly initialised `None`/`False` columns. -/
def mark_of (seed : Option Dir) (full : List MBar) (i : Nat) (b : MBar) : MBar :=
  if i = 0 then
    match seed with
    | some Dir.down => { b with isF := true, ft := some FT.top }
    | some Dir.up => { b with isF := true, ft := some FT.bottom }
    | none => { b with isF := false, ft := none }
  else if check_top_fractal full i then { b with isF := true, ft := some FT.top }
  else if check_bottom_fractal full i then { b with isF := true, ft := some FT.bottom }
  else { b with isF := false, ft := none }

/-- Indexed rebuild of the mark columns. -/
def identify_go (seed : Option Dir) (full : List MBar) : Nat → List MBar → List MBar
  | _, [] => []
  | i, b :: bs => mark_of seed full i b :: identify_go seed full (i + 1) bs

/-- `identify_fractals` at the level of the mark columns: previous marks
are discarded (the source creates the columns fresh) and each bar is
re-marked from the static prices. -/
def identify_fractals (seed : Option Dir) (l : List MBar) : List MBar :=
  identify_go seed l 0 l

/-! ## Mark clearing (the only write the filter passes perform) -/

/-- Clearing a mark: `fractal_type = None`, `is_fractal = False`; the
static columns are untouched. -/
def clear_mark (b : MBar) : MBar :=
  { b with isF := false, ft := none }

/-- Clear the mark of the bar at index `i`. -/
def clear_at : List MBar → Nat → List MBar
  | [], _ => []
  | b :: bs, 0 => clear_mark b :: bs
  | b :: bs, n + 1 => b :: clear_at bs n

/-- Apply a batch of clears left to right. -/
def apply_clears (m : List MBar) (l : List Nat) : List MBar :=
  l.foldl clear_at m

/-! ## F1: `filter_fractals_by_extremes` (window = 4) -/

/-- The `±window` slice `klines[start : end+1]` around index `i`. -/
def window_slice (full : List MBar) (i : Nat) : List MBar :=
  (full.take (min (full.length - 1) (i + 4) + 1)).drop (i - 4)

/-- The per-bar decision of `filter_fractals_by_extremes`: a top whose
high is below the window maximum, or a bottom whose low is above the
window minimum, loses its mark; everything else is untouched.  The
decision reads only the bar's own mark and the static prices, so the
sequential pass is a pointwise map. -/
def f1_at (full : List MBar) (i : Nat) (b : MBar) : MBar :=
  if b.isF = true then
    match b.ft with
    | some FT.top =>
      if b.high < py_max ((window_slice full i).map (·.high)) then clear_mark b else b
    | some FT.bottom =>
      if b.low > py_min ((window_slice full i).map (·.low)) then clear_mark b else b
    | none => b
  else b

/-- Indexed traversal for F1. -/
def f1_go (full : List MBar) : Nat → List MBar → List MBar
  | _, [] => []
  | i, b :: bs => f1_at full i b :: f1_go full (i + 1) bs

/-- `filter_fractals_by_extremes` with the default `window = 4`. -/
def filter_fractals_by_extremes (l : List MBar) : List MBar :=
  f1_go l 0 l

/-! ## Surviving-mark items -/

/-- One entry of the `fractal_indices` scans: the structural-bar index,
the recorded `fractal_type` and the static prices. -/
structure Item where
  idx : Nat
  ft : Option FT
  high : Int
  low : Int
deriving DecidableEq, Repr

/-- The `is_fractal`-filtered scan the filter passes start with
(`for i in range(n): if result_df.loc[i, 'is_fractal']: ...`),
labelling entries with their index. -/
def surv_aux : Nat → List MBar → List Item
  | _, [] => []
  | i, b :: bs =>
    if b.isF = true then ⟨i, b.ft, b.high, b.low⟩ :: surv_aux (i + 1) bs
    else surv_aux (i + 1) bs

/-- Surviving marks of the whole sequence. -/
def surv_items (m : List MBar) : List Item :=
  surv_aux 0 m

/-! ## F2: `filter_consecutive_fractals` -/

/-- Decompose the surviving marks into the maximal same-type runs the
outer loop of `filter_consecutive_fractals` walks: same-type marks
extend the current group, a mark of any other type ends it; non-marks
are invisible because `surv_aux` already dropped them. -/
def chunks : List Item → List (List Item)
  | [] => []
  | x :: xs =>
    match chunks xs with
    | [] => [[x]]
    | c :: cs =>
      match c with
      | [] => [x] :: cs
      | y :: _ => if y.ft = x.ft then (x :: c) :: cs else [x] :: c :: cs

/-- The group member kept for a run of tops: the first one attaining the
maximum high (the source scans with a strict `>` against `-inf`, so the
first maximum wins). -/
def keep_top (x : Item) (xs : List Item) : Item :=
  xs.foldl (fun b y => if y.high > b.high then y else b) x

/-- The group member kept for a run of bottoms: the first one attaining
the minimum low. -/
def keep_bottom (x : Item) (xs : List Item) : Item :=
  xs.foldl (fun b y => if y.low < b.low then y else b) x

/-- The indices a group clears: nothing for groups of size one or groups
whose recorded type is `None` (the outer loop skips those); otherwise
every member except the kept extreme. -/
def chunk_clears : List Item → List Nat
  | [] => []
  | x :: xs =>
    match x.ft with
    | none => []
    | some FT.top =>
      if xs = [] then []
      else ((x :: xs).map (·.idx)).filter (fun i => i ≠ (keep_top x xs).idx)
    | some FT.bottom =>
      if xs = [] then []
      else ((x :: xs).map (·.idx)).filter (fun i => i ≠ (keep_bottom x xs).idx)

/-- All indices `filter_consecutive_fractals` clears. -/
def f2_clears (its : List Item) : List Nat :=
  ((chunks its).map chunk_clears).flatten

/-- `filter_consecutive_fractals`: within each maximal run of same-type
marks keep only the most extreme one (first wins on ties) and clear the
rest. -/
def filter_consecutive_fractals (m : List MBar) : List MBar :=
  apply_clears m (f2_clears (surv_items m))

/-! ## F3: `validate_fractal_relationships` -/

/-- Current `fractal_type` at bar index `i` (reads the working frame,
which earlier steps of the same pass may already have cleared). -/
def ft_at (m : List MBar) (i : Nat) : Option FT :=
  ((m[i]?).map (·.ft)).getD none

/-- Nearest preceding entry of `fidx` (strictly before position `p`)
whose current type is set and differs from `t`. -/
def find_opp_before (m : List MBar) (fidx : List Nat) (p : Nat) (t : FT) : Option Nat :=
  ((fidx.take p).reverse).find? (fun j =>
    match ft_at m j with
    | some s => s ≠ t
    | none => false)

/-- Nearest following entry of `fidx` (strictly after position `p`)
whose current type is set and differs from `t`. -/
def find_opp_after (m : List MBar) (fidx : List Nat) (p : Nat) (t : FT) : Option Nat :=
  (fidx.drop (p + 1)).find? (fun j =>
    match ft_at m j with
    | some s => s ≠ t
    | none => false)

/-- One iteration of the F3 validation loop at position `p` of the
entry-time mark list `fidx`: a bottom must lie strictly below the highs
of its nearest opposite neighbours, a top strictly above their lows;
otherwise its mark is cleared (and the removal counter bumped). -/
def f3_step (fidx : List Nat) (st : List MBar × Nat) (p : Nat) : List MBar × Nat :=
  match fidx[p]? with
  | none => st
  | some cur =>
    match ft_at st.1 cur with
    | none => st
    | some t =>
      let prevOpp := find_opp_before st.1 fidx p t
      let nextOpp := find_opp_after st.1 fidx p t
      let ok :=
        match t with
        | FT.bottom =>
          (match prevOpp with
           | some j => decide (low_at st.1 cur < high_at st.1 j)
           | none => true) &&
          (match nextOpp with
           | some j => decide (low_at st.1 cur < high_at st.1 j)
           | none => true)
        | FT.top =>
          (match prevOpp with
           | some j => decide (high_at st.1 cur > low_at st.1 j)
           | none => true) &&
          (match nextOpp with
           | some j => decide (high_at st.1 cur > low_at st.1 j)
           | none => true)
      if ok then st else (clear_at st.1 cur, st.2 + 1)

/-- `validate_fractal_relationships`: walk every entry-time mark except
the first, clear the ones whose price does not strictly dominate the
nearest surviving opposite marks, and re-run
`filter_consecutive_fractals` when anything was cleared. -/
def validate_fractal_relationships (m : List MBar) : List MBar :=
  let fidx := (surv_items m).map (·.idx)
  if fidx.length ≤ 1 then m
  else
    let st := ((List.range fidx.length).drop 1).foldl (f3_step fidx) (m, 0)
    if st.2 > 0 then filter_consecutive_fractals st.1 else st.1

/-! ## F4: `filter_close_fractals` (min_gap = 4) -/

/-- The `top → bottom` resolution of `filter_close_fractals` for the
stale pair at positions `p, p+1` of the entry-time list `fitems` (all
searches and price comparisons use the entry-time list; only the clears
touch the working frame). -/
def f4_top_bottom (fitems : List Item) (p : Nat) (cur nxt : Item)
    (m : List MBar) (rem : Nat) : List MBar × Nat :=
  match (fitems.drop (p + 2)).find? (fun y => y.ft = some FT.top) with
  | none => (m, rem)
  | some a1 =>
    if a1.high > cur.high then
      let m1 := clear_at m cur.idx
      match ((fitems.take p).reverse).find? (fun y => y.ft = some FT.bottom) with
      | none => (m1, rem + 1)
      | some b1 =>
        if nxt.low < b1.low then (clear_at m1 b1.idx, rem + 2)
        else (clear_at m1 nxt.idx, rem + 2)
    else
      let m1 := clear_at m a1.idx
      match (fitems.drop (p + 3)).find? (fun y => y.ft = some FT.bottom) with
      | none => (m1, rem + 1)
      | some b1 =>
        if nxt.low < b1.low then (clear_at m1 b1.idx, rem + 2)
        else (clear_at m1 nxt.idx, rem + 2)

/-- The mirror `bottom → top` resolution. -/
def f4_bottom_top (fitems : List Item) (p : Nat) (cur nxt : Item)
    (m : List MBar) (rem : Nat) : List MBar × Nat :=
  match (fitems.drop (p + 2)).find? (fun y => y.ft = some FT.bottom) with
  | none => (m, rem)
  | some a1 =>
    if a1.low < cur.low then
      let m1 := clear_at m cur.idx
      match ((fitems.take p).reverse).find? (fun y => y.ft = some FT.top) with
      | none => (m1, rem + 1)
      | some b1 =>
        if nxt.high > b1.high then (clear_at m1 b1.idx, rem + 2)
        else (clear_at m1 nxt.idx, rem + 2)
    else
      let m1 := clear_at m a1.idx
      match (fitems.drop (p + 3)).find? (fun y => y.ft = some FT.top) with
      | none => (m1, rem + 1)
      | some b1 =>
        if nxt.high > b1.high then (clear_at m1 b1.idx, rem + 2)
        else (clear_at m1 nxt.idx, rem + 2)

/-- One iteration of the F4 pair loop.  The `processed_pairs` set of the
source is carried faithfully even though its keys (taken from the
entry-time list) are pairwise distinct, so the membership test never
fires; a pair is added to it only after passing the gap test. -/
def f4_step (fitems : List Item) (st : (List MBar × Nat) × List (Nat × Nat)) (p : Nat) :
    (List MBar × Nat) × List (Nat × Nat) :=
  match fitems[p]?, fitems[p + 1]? with
  | some cur, some nxt =>
    if (cur.idx, nxt.idx) ∈ st.2 then st
    else if nxt.idx - cur.idx ≥ 4 then st
    else
      let proc := (cur.idx, nxt.idx) :: st.2
      match cur.ft, nxt.ft with
      | some FT.top, some FT.bottom =>
        (f4_top_bottom fitems p cur nxt st.1.1 st.1.2, proc)
      | some FT.bottom, some FT.top =>
        (f4_bottom_top fitems p cur nxt st.1.1 st.1.2, proc)
      | _, _ => (st.1, proc)
  | _, _ => st

/-- `filter_close_fractals`: resolve every adjacent entry-time pair of
marks closer than 4 structural bars, then re-run
`filter_consecutive_fractals` when anything was cleared.  With at most
two entry-time marks the pass returns its input. -/
def filter_close_fractals (m : List MBar) : List MBar :=
  let fitems := surv_items m
  if fitems.length ≤ 2 then m
  else
    let st := (List.range (fitems.length - 1)).foldl (f4_step fitems) ((m, 0), [])
    if st.1.2 > 0 then filter_consecutive_fractals st.1.1 else st.1.1

/-! ## Filter chain and `process_fractals` -/

/-- The filter portion of `process_fractals`: F1, F2, F3, F4, then F3
and F4 once more (each of F3/F4 re-running F2 internally on change). -/
def fractal_chain (m : List MBar) : List MBar :=
  let m1 := filter_fractals_by_extremes m
  let m2 := filter_consecutive_fractals m1
  let m3 := validate_fractal_relationships m2
  let m4 := filter_close_fractals m3
  let m5 := validate_fractal_relationships m4
  filter_close_fractals m5

/-- Marks produced by `process_fractals` on a structural-bar sequence:
identification followed by the filter chain. -/
def process_fractals_marks (seed : Option Dir) (m : List MBar) : List MBar :=
  fractal_chain (identify_fractals seed m)

/-! ## Stroke builder: `identify_segments` -/

/-- A fractal entry of the stroke builder (`is_fractal` true *and*
`fractal_type` not `None`). -/
structure FItem where
  idx : Nat
  dt : Int
  ft : FT
  high : Int
  low : Int
deriving DecidableEq, Repr

/-- The `fractals` list of `identify_segments`. -/
def fractal_aux : Nat → List MBar → List FItem
  | _, [] => []
  | i, b :: bs =>
    match b.isF, b.ft with
    | true, some t => ⟨i, b.datetime, t, b.high, b.low⟩ :: fractal_aux (i + 1) bs
    | _, _ => fractal_aux (i + 1) bs

/-- The opposite fractal type. -/
def alt_ft : FT → FT
  | FT.top => FT.bottom
  | FT.bottom => FT.top

/-- The alternation filter of `identify_segments`: keep a fractal only
when its type matches the expected one, flipping the expectation on each
keep; others are skipped. -/
def keep_alt (expected : FT) : List FItem → List FItem
  | [] => []
  | x :: xs =>
    if x.ft = expected then x :: keep_alt (alt_ft expected) xs
    else keep_alt expected xs

/-- A stroke record (`segments` entry of `identify_segments`). -/
structure Stroke where
  id : Nat
  start_idx : Nat
  end_idx : Nat
  start_dt : Int
  end_dt : Int
  start_type : FT
  end_type : FT
  start_price : Int
  end_price : Int
  direction : Dir
deriving DecidableEq, Repr

/-- Build the stroke for one consecutive pair of kept fractals: the
price of a top endpoint is its high, of a bottom its low; the direction
is down iff the stroke starts at a top. -/
def mk_stroke (m : Nat) (a b : FItem) : Stroke :=
  ⟨m, a.idx, b.idx, a.dt, b.dt, a.ft, b.ft,
   (if a.ft = FT.top then a.high else a.low),
   (if b.ft = FT.top then b.high else b.low),
   (if a.ft = FT.top then Dir.down else Dir.up)⟩

/-- One stroke per consecutive pair of kept fractals, ids counting up. -/
def mk_strokes : Nat → List FItem → List Stroke
  | _, [] => []
  | _, [_] => []
  | m, a :: b :: rest => mk_stroke m a b :: mk_strokes (m + 1) (b :: rest)

/-- `identify_segments`: with fewer than two fractals no strokes exist;
otherwise the alternation filter runs from the first fractal and every
consecutive kept pair becomes a stroke. -/
def identify_segments (m : List MBar) : List Stroke :=
  let fr := fractal_aux 0 m
  if fr.length < 2 then []
  else
    match fr with
    | [] => []
    | f :: fs => mk_strokes 0 (f :: keep_alt (alt_ft f.ft) fs)

/-! ## Driver: `process_klines` -/

/-- Convert a structural bar to a marked bar with freshly initialised
mark columns. -/
def sbar_to_mbar (s : SBar) : MBar :=
  ⟨s.datetime, s.high, s.low, false, none⟩

/-- `identify_fractals` at the frame level: on an empty frame the source
returns the frame unchanged, i.e. *without* creating the `fractal_type`
and `is_fractal` columns; `none` records their absence. -/
def identify_frame (seed : Option Dir) (bars : List SBar) : Option (List MBar) :=
  if bars = [] then none
  else some (identify_fractals seed (bars.map sbar_to_mbar))

/-- `process_fractals` at the frame level: its first statement after
identification evaluates `fractals_df[fractals_df['is_fractal']]`, which
raises `KeyError` when the column is absent. -/
def process_fractals (seed : Option Dir) (bars : List SBar) :
    Except String (List MBar) :=
  match identify_frame seed bars with
  | none => Except.error "KeyError: is_fractal"
  | some marks => Except.ok (fractal_chain marks)

/-- The full pipeline output. -/
structure PipelineOut where
  bars : List SBar
  marks : List MBar
  segments : List Stroke
deriving DecidableEq, Repr

/-- `process_klines`: trim, merge, identify-and-filter fractals, build
strokes.  Any exception raised by a stage propagates to the caller. -/
def process_klines (df : List RawBar) : Except String PipelineOut :=
  let t := trim_data_by_extremes ⟨true, true, true, df⟩
  let merged := merge_klines t.seed t.bars
  match process_fractals t.seed merged with
  | Except.error e => Except.error e
  | Except.ok marks => Except.ok ⟨merged, marks, identify_segments marks⟩

/-! ## Concrete inputs used by counterexamples and witnesses -/

/-- The three raw bars of the spec's Scenario B: (high, low) pairs
(10,5), (9,6), (11,4). -/
def scenario_b_bars : List RawBar :=
  [⟨0, 7, 10, 5, 8, 1, 2⟩, ⟨1, 9, 9, 6, 7, 3, 4⟩, ⟨2, 5, 11, 4, 6, 5, 6⟩]

/-- Five raw bars whose merge (seed direction down, which is also what
the trimmer infers for them) produces adjacent structural bars in
containment: (20,10), (15,8), (18,9), (16,7), (19,6). -/
def containment_bug_bars : List RawBar :=
  [⟨0, 1, 20, 10, 1, 1, 1⟩, ⟨1, 1, 15, 8, 1, 1, 1⟩, ⟨2, 1, 18, 9, 1, 1, 1⟩,
   ⟨3, 1, 16, 7, 1, 1, 1⟩, ⟨4, 1, 19, 6, 1, 1, 1⟩]

/-- Scenario A of the spec: highs [10,15,12,11,13], lows [8,12,7,9,10]. -/
def scenario_a_bars : List RawBar :=
  [⟨0, 0, 10, 8, 0, 0, 0⟩, ⟨1, 0, 15, 12, 0, 0, 0⟩, ⟨2, 0, 12, 7, 0, 0, 0⟩,
   ⟨3, 0, 11, 9, 0, 0, 0⟩, ⟨4, 0, 13, 10, 0, 0, 0⟩]

/-- A single raw bar. -/
def single_bar : RawBar := ⟨0, 7, 10, 5, 8, 1, 2⟩

/-- Price levels of a 43-bar zigzag: a close top/bottom pair at indices
2 and 4 followed by three well-separated (top, bottom) pairs with
decreasing tops and increasing bottoms. -/
def zigzag_levels : List Int :=
  [92, 96, 100, 56, 12, 25, 38, 51, 64, 77, 90, 78, 66, 54, 42, 30, 18,
   28, 38, 48, 58, 68, 78, 70, 62, 54, 46, 38, 30, 37, 44, 51, 58, 65, 72,
   67, 62, 57, 52, 47, 42, 48, 54]

/-- The zigzag as marked structural bars (`high = level`,
`low = level - 2`, fresh mark columns). -/
def zigzag_bars : List MBar :=
  zigzag_levels.map (fun v => ⟨0, v, v - 2, false, none⟩)

/-- The identifier's output on the zigzag with seed direction up: the
input of the filter chain in the non-idempotence counterexample. -/
def zigzag_marks : List MBar :=
  identify_fractals (some Dir.up) zigzag_bars

/-! ## Pointwise lemmas: the filter passes only ever clear marks -/

theorem clear_mark_idem (b : MBar) : clear_mark (clear_mark b) = clear_mark b := rfl

theorem clear_at_getElem (m : List MBar) (i : Nat) :
    ∀ j, (clear_at m i)[j]? = if j = i then (m[j]?).map clear_mark else m[j]? := by
  induction m generalizing i with
  | nil => intro j; cases i <;> simp [clear_at]
  | cons b bs ih =>
    intro j
    cases i with
    | zero =>
      cases j with
      | zero => simp [clear_at]
      | succ j => simp [clear_at]
    | succ i =>
      cases j with
      | zero => simp [clear_at]
      | succ j => simpa [clear_at] using ih i j

/-- `m'` is `m` with some subset of the marks cleared. -/
@[reducible] def OnlyClears (m m' : List MBar) : Prop :=
  ∀ j : Nat, m'[j]? = m[j]? ∨ m'[j]? = (m[j]?).map clear_mark

theorem onlyClears_refl (m : List MBar) : OnlyClears m m :=
  fun _ => Or.inl rfl

theorem onlyClears_trans {m₁ m₂ m₃ : List MBar}
    (h₁ : OnlyClears m₁ m₂) (h₂ : OnlyClears m₂ m₃) : OnlyClears m₁ m₃ := by
  intro j
  rcases h₂ j with h | h <;> rcases h₁ j with h' | h'
  · exact Or.inl (h.trans h')
  · exact Or.inr (h.trans h')
  · exact Or.inr (by rw [h, h'])
  · right
    rw [h, h']
    cases m₁[j]? <;> simp [clear_mark_idem]

theorem onlyClears_clear_at (m : List MBar) (i : Nat) : OnlyClears m (clear_at m i) := by
  intro j
  rw [clear_at_getElem]
  by_cases h : j = i <;> simp [h]

theorem onlyClears_apply_clears (m : List MBar) (l : List Nat) :
    OnlyClears m (apply_clears m l) := by
  induction l generalizing m with
  | nil => exact onlyClears_refl m
  | cons a l ih =>
    exact onlyClears_trans (onlyClears_clear_at m a) (ih (clear_at m a))

theorem onlyClears_f2 (m : List MBar) :
    OnlyClears m (filter_consecutive_fractals m) :=
  onlyClears_apply_clears m _

theorem f3_step_cases (fidx : List Nat) (st : List MBar × Nat) (p : Nat) :
    f3_step fidx st p = st ∨
      ∃ i, f3_step fidx st p = (clear_at st.1 i, st.2 + 1) := by
  have key : ∀ (ok : Bool) (cur : Nat),
      (if ok = true then st else (clear_at st.1 cur, st.2 + 1)) = st ∨
        ∃ i, (if ok = true then st else (clear_at st.1 cur, st.2 + 1)) =
          (clear_at st.1 i, st.2 + 1) := by
    intro ok cur
    cases ok
    · exact Or.inr ⟨cur, by simp⟩
    · exact Or.inl (by simp)
  unfold f3_step
  split
  · exact Or.inl rfl
  split
  · exact Or.inl rfl
  dsimp only
  exact key _ _

theorem onlyClears_f3_fold (fidx : List Nat) (ps : List Nat) :
    ∀ st : List MBar × Nat, OnlyClears st.1 (ps.foldl (f3_step fidx) st).1 := by
  induction ps with
  | nil => intro st; exact onlyClears_refl _
  | cons p ps ih =>
    intro st
    rw [List.foldl_cons]
    rcases f3_step_cases fidx st p with h | ⟨i, h⟩
    · rw [h]
      exact ih st
    · rw [h]
      exact onlyClears_trans (onlyClears_clear_at st.1 i) (ih (clear_at st.1 i, st.2 + 1))

theorem onlyClears_f3 (m : List MBar) :
    OnlyClears m (validate_fractal_relationships m) := by
  unfold validate_fractal_relationships
  dsimp only
  split
  · exact onlyClears_refl m
  split
  · exact onlyClears_trans (onlyClears_f3_fold _ _ (m, 0)) (onlyClears_f2 _)
  · exact onlyClears_f3_fold _ _ (m, 0)

theorem onlyClears_f4_tb (fitems : List Item) (p : Nat) (cur nxt : Item)
    (m : List MBar) (rem : Nat) :
    OnlyClears m (f4_top_bottom fitems p cur nxt m rem).1 := by
  unfold f4_top_bottom
  split
  · exact onlyClears_refl m
  split <;> dsimp only <;> split
  · exact onlyClears_clear_at m cur.idx
  · split <;>
      exact onlyClears_trans (onlyClears_clear_at m cur.idx) (onlyClears_clear_at _ _)
  · exact onlyClears_clear_at m _
  · split <;>
      exact onlyClears_trans (onlyClears_clear_at m _) (onlyClears_clear_at _ _)

theorem onlyClears_f4_bt (fitems : List Item) (p : Nat) (cur nxt : Item)
    (m : List MBar) (rem : Nat) :
    OnlyClears m (f4_bottom_top fitems p cur nxt m rem).1 := by
  unfold f4_bottom_top
  split
  · exact onlyClears_refl m
  split <;> dsimp only <;> split
  · exact onlyClears_clear_at m cur.idx
  · split <;>
      exact onlyClears_trans (onlyClears_clear_at m cur.idx) (onlyClears_clear_at _ _)
  · exact onlyClears_clear_at m _
  · split <;>
      exact onlyClears_trans (onlyClears_clear_at m _) (onlyClears_clear_at _ _)

theorem onlyClears_f4_step (fitems : List Item)
    (st : (List MBar × Nat) × List (Nat × Nat)) (p : Nat) :
    OnlyClears st.1.1 (f4_step fitems st p).1.1 := by
  unfold f4_step
  split
  · split
    · exact onlyClears_refl _
    split
    · exact onlyClears_refl _
    dsimp only
    split
    · exact onlyClears_f4_tb _ _ _ _ _ _
    · exact onlyClears_f4_bt _ _ _ _ _ _
    · exact onlyClears_refl _
  · exact onlyClears_refl _

theorem onlyClears_f4_fold (fitems : List Item) (ps : List Nat) :
    ∀ st : (List MBar × Nat) × List (Nat × Nat),
      OnlyClears st.1.1 (ps.foldl (f4_step fitems) st).1.1 := by
  induction ps with
  | nil => intro st; exact onlyClears_refl _
  | cons p ps ih =>
    intro st
    rw [List.foldl_cons]
    exact onlyClears_trans (onlyClears_f4_step fitems st p) (ih (f4_step fitems st p))

theorem onlyClears_f4 (m : List MBar) :
    OnlyClears m (filter_close_fractals m) := by
  unfold filter_close_fractals
  dsimp only
  split
  · exact onlyClears_refl m
  split
  · exact onlyClears_trans (onlyClears_f4_fold _ _ ((m, 0), [])) (onlyClears_f2 _)
  · exact onlyClears_f4_fold _ _ ((m, 0), [])

theorem f1_at_cases (full : List MBar) (i : Nat) (b : MBar) :
    f1_at full i b = b ∨ f1_at full i b = clear_mark b := by
  unfold f1_at
  split
  · split
    · split
      · exact Or.inr rfl
      · exact Or.inl rfl
    · split
      · exact Or.inr rfl
      · exact Or.inl rfl
    · exact Or.inl rfl
  · exact Or.inl rfl

theorem f1_go_getElem (full : List MBar) :
    ∀ (l : List MBar) (i j : Nat),
      (f1_go full i l)[j]? = (l[j]?).map (f1_at full (i + j)) := by
  intro l
  induction l with
  | nil => intro i j; simp [f1_go]
  | cons b bs ih =>
    intro i j
    cases j with
    | zero => simp [f1_go]
    | succ j =>
      simp only [f1_go, List.getElem?_cons_succ]
      rw [ih (i + 1) j]
      have hidx : i + 1 + j = i + (j + 1) := by omega
      rw [hidx]

theorem onlyClears_f1 (m : List MBar) :
    OnlyClears m (filter_fractals_by_extremes m) := by
  intro j
  unfold filter_fractals_by_extremes
  rw [f1_go_getElem]
  rcases hm : m[j]? with _ | b
  · simp
  · rcases f1_at_cases m (0 + j) b with h | h <;>
      rw [Nat.zero_add] at h <;> simp [h]

theorem onlyClears_chain (m : List MBar) : OnlyClears m (fractal_chain m) := by
  unfold fractal_chain
  exact onlyClears_trans (onlyClears_f1 m)
    (onlyClears_trans (onlyClears_f2 _)
      (onlyClears_trans (onlyClears_f3 _)
        (onlyClears_trans (onlyClears_f4 _)
          (onlyClears_trans (onlyClears_f3 _) (onlyClears_f4 _)))))

/-- The tail of the chain after F1 also only clears. -/
theorem onlyClears_chain_after_f1 (m : List MBar) :
    OnlyClears (filter_fractals_by_extremes m) (fractal_chain m) := by
  unfold fractal_chain
  exact onlyClears_trans (onlyClears_f2 _)
    (onlyClears_trans (onlyClears_f3 _)
      (onlyClears_trans (onlyClears_f4 _)
        (onlyClears_trans (onlyClears_f3 _) (onlyClears_f4 _))))

/-- A mark surviving after an only-clears pass was present before it. -/
theorem onlyClears_survivor {m m' : List MBar} (h : OnlyClears m m')
    {j : Nat} {b : MBar} (hb : m'[j]? = some b) (hf : b.isF = true) :
    m[j]? = some b := by
  rcases h j with h' | h'
  · rw [← h', hb]
  · exfalso
    rw [hb] at h'
    rcases hm : m[j]? with _ | b0
    · rw [hm] at h'
      simp at h'
    · rw [hm] at h'
      simp only [Option.map_some'] at h'
      have hb0 : b = clear_mark b0 := by injection h'
      rw [hb0] at hf
      simp [clear_mark] at hf

/-! ## Window-extremum lemmas (F1) -/

theorem foldl_max_init_le (xs : List Int) : ∀ a : Int, a ≤ xs.foldl max a := by
  induction xs with
  | nil => intro a; exact le_refl a
  | cons x xs ih =>
    intro a
    exact le_trans (le_max_left a x) (ih (max a x))

theorem foldl_max_mem_le (xs : List Int) :
    ∀ (a y : Int), y ∈ xs → y ≤ xs.foldl max a := by
  induction xs with
  | nil => intro a y hy; cases hy
  | cons x xs ih =>
    intro a y hy
    rcases List.mem_cons.mp hy with h | h
    · subst h
      exact le_trans (le_max_right a y) (foldl_max_init_le xs (max a y))
    · exact ih (max a x) y h

theorem le_py_max {y : Int} {l : List Int} (hy : y ∈ l) : y ≤ py_max l := by
  cases l with
  | nil => cases hy
  | cons x xs =>
    rcases List.mem_cons.mp hy with h | h
    · subst h
      exact foldl_max_init_le xs y
    · exact foldl_max_mem_le xs x y h

theorem foldl_min_le_init (xs : List Int) : ∀ a : Int, xs.foldl min a ≤ a := by
  induction xs with
  | nil => intro a; exact le_refl a
  | cons x xs ih =>
    intro a
    exact le_trans (ih (min a x)) (min_le_left a x)

theorem foldl_min_le_mem (xs : List Int) :
    ∀ (a y : Int), y ∈ xs → xs.foldl min a ≤ y := by
  induction xs with
  | nil => intro a y hy; cases hy
  | cons x xs ih =>
    intro a y hy
    rcases List.mem_cons.mp hy with h | h
    · subst h
      exact le_trans (foldl_min_le_init xs (min a y)) (min_le_right a y)
    · exact ih (min a x) y h

theorem py_min_le {y : Int} {l : List Int} (hy : y ∈ l) : py_min l ≤ y := by
  cases l with
  | nil => cases hy
  | cons x xs =>
    rcases List.mem_cons.mp hy with h | h
    · subst h
      exact foldl_min_le_init xs y
    · exact foldl_min_le_mem xs x y h

theorem mem_window_slice {m : List MBar} {i : Nat} {b : MBar}
    (h : m[i]? = some b) : b ∈ window_slice m i := by
  have hi : i < m.length := by
    by_contra h'
    rw [List.getElem?_eq_none (Nat.le_of_not_lt h')] at h
    cases h
  apply List.mem_iff_getElem?.mpr
  refine ⟨i - (i - 4), ?_⟩
  unfold window_slice
  rw [List.getElem?_drop]
  have hidx : (i - 4) + (i - (i - 4)) = i := by omega
  rw [hidx, List.getElem?_take, if_pos (by omega)]
  exact h

theorem f1_survivor_window {m : List MBar} {i : Nat} {b : MBar}
    (h : (filter_fractals_by_extremes m)[i]? = some b) (hf : b.isF = true) :
    (b.ft = some FT.top → py_max ((window_slice m i).map (·.high)) = b.high) ∧
    (b.ft = some FT.bottom → py_min ((window_slice m i).map (·.low)) = b.low) := by
  unfold filter_fractals_by_extremes at h
  rw [f1_go_getElem, Nat.zero_add] at h
  rcases hm : m[i]? with _ | b0
  · rw [hm] at h
    cases h
  rw [hm] at h
  simp only [Option.map_some'] at h
  have hb : f1_at m i b0 = b := by injection h
  have hmem := mem_window_slice hm
  unfold f1_at at hb
  split at hb
  case isTrue hf0 =>
    split at hb
    case h_1 t heq =>
      -- b0 is a marked top
      split at hb
      case isTrue hlt =>
        exfalso
        rw [← hb] at hf
        simp [clear_mark] at hf
      case isFalse hlt =>
        subst hb
        constructor
        · intro _
          refine le_antisymm ?_ (le_py_max (List.mem_map_of_mem (·.high) hmem))
          exact le_of_not_lt hlt
        · intro hbt
          rw [heq] at hbt
          cases hbt
    case h_2 t heq =>
      -- b0 is a marked bottom
      split at hb
      case isTrue hgt =>
        exfalso
        rw [← hb] at hf
        simp [clear_mark] at hf
      case isFalse hgt =>
        subst hb
        constructor
        · intro hbt
          rw [heq] at hbt
          cases hbt
        · intro _
          refine le_antisymm (py_min_le (List.mem_map_of_mem (·.low) hmem)) ?_
          exact le_of_not_lt hgt
    case h_3 heq =>
      subst hb
      constructor
      · intro hbt
        rw [heq] at hbt
        cases hbt
      · intro hbt
        rw [heq] at hbt
        cases hbt
  case isFalse hf0 =>
    exfalso
    subst hb
    rw [hf] at hf0
    exact hf0 rfl

theorem onlyClears_map_high {m m' : List MBar} (h : OnlyClears m m') :
    m'.map (·.high) = m.map (·.high) := by
  apply List.ext_getElem?
  intro n
  rw [List.getElem?_map, List.getElem?_map]
  rcases h n with h' | h' <;> rw [h']
  cases m[n]? <;> rfl

theorem onlyClears_map_low {m m' : List MBar} (h : OnlyClears m m') :
    m'.map (·.low) = m.map (·.low) := by
  apply List.ext_getElem?
  intro n
  rw [List.getElem?_map, List.getElem?_map]
  rcases h n with h' | h' <;> rw [h']
  cases m[n]? <;> rfl

theorem onlyClears_length {m m' : List MBar} (h : OnlyClears m m') :
    m'.length = m.length := by
  have := congrArg List.length (onlyClears_map_high h)
  simpa using this

theorem window_slice_map_high {m m' : List MBar} (i : Nat)
    (hh : m'.map (·.high) = m.map (·.high)) (hlen : m'.length = m.length) :
    (window_slice m' i).map (·.high) = (window_slice m i).map (·.high) := by
  unfold window_slice
  rw [List.map_drop, List.map_take, hh, hlen, ← List.map_take, ← List.map_drop]

theorem window_slice_map_low {m m' : List MBar} (i : Nat)
    (hh : m'.map (·.low) = m.map (·.low)) (hlen : m'.length = m.length) :
    (window_slice m' i).map (·.low) = (window_slice m i).map (·.low) := by
  unfold window_slice
  rw [List.map_drop, List.map_take, hh, hlen, ← List.map_take, ← List.map_drop]

/-- Every mark surviving the full filter chain sits at a window extremum
(W = 4): F1 enforces the property and the later passes only clear. -/
theorem chain_survivor_window {m : List MBar} {i : Nat} {b : MBar}
    (h : (fractal_chain m)[i]? = some b) (hf : b.isF = true) :
    (b.ft = some FT.top →
      py_max ((window_slice (fractal_chain m) i).map (·.high)) = b.high) ∧
    (b.ft = some FT.bottom →
      py_min ((window_slice (fractal_chain m) i).map (·.low)) = b.low) := by
  have h1 : (filter_fractals_by_extremes m)[i]? = some b :=
    onlyClears_survivor (onlyClears_chain_after_f1 m) h hf
  have base := f1_survivor_window h1 hf
  have hc := onlyClears_chain m
  have hhigh := @window_slice_map_high m (fractal_chain m) i
    (onlyClears_map_high hc) (onlyClears_length hc)
  have hlow := @window_slice_map_low m (fractal_chain m) i
    (onlyClears_map_low hc) (onlyClears_length hc)
  rw [hhigh, hlow]
  exact base

/-! ## F2 idempotence machinery -/

theorem surv_aux_idx_ge :
    ∀ (m : List MBar) (i : Nat) (x : Item), x ∈ surv_aux i m → i ≤ x.idx := by
  intro m
  induction m with
  | nil => intro i x hx; cases hx
  | cons b bs ih =>
    intro i x hx
    unfold surv_aux at hx
    split at hx
    · rcases List.mem_cons.mp hx with h | h
      · subst h
        exact le_refl i
      · exact le_trans (Nat.le_succ i) (ih (i + 1) x h)
    · exact le_trans (Nat.le_succ i) (ih (i + 1) x hx)

theorem surv_aux_pairwise :
    ∀ (m : List MBar) (i : Nat),
      (surv_aux i m).Pairwise (fun a b => a.idx < b.idx) := by
  intro m
  induction m with
  | nil => intro i; exact List.Pairwise.nil
  | cons b bs ih =>
    intro i
    unfold surv_aux
    split
    · refine List.pairwise_cons.mpr ⟨?_, ih (i + 1)⟩
      intro y hy
      exact lt_of_lt_of_le (Nat.lt_succ_self i) (surv_aux_idx_ge bs (i + 1) y hy)
    · exact ih (i + 1)

theorem surv_aux_cons (i : Nat) (b : MBar) (bs : List MBar) :
    surv_aux i (b :: bs) =
      if b.isF = true then (⟨i, b.ft, b.high, b.low⟩ : Item) :: surv_aux (i + 1) bs
      else surv_aux (i + 1) bs := rfl

theorem surv_aux_clear_at :
    ∀ (m : List MBar) (i k : Nat),
      surv_aux i (clear_at m k) =
        (surv_aux i m).filter (fun x => decide (x.idx ≠ i + k)) := by
  intro m
  induction m with
  | nil => intro i k; cases k <;> rfl
  | cons b bs ih =>
    intro i k
    cases k with
    | zero =>
      have hlhs : surv_aux i (clear_at (b :: bs) 0) = surv_aux (i + 1) bs := by
        show surv_aux i (clear_mark b :: bs) = _
        rw [surv_aux_cons, if_neg (by simp [clear_mark])]
      have hrest : (surv_aux (i + 1) bs).filter (fun x => decide (x.idx ≠ i + 0)) =
          surv_aux (i + 1) bs := by
        apply List.filter_eq_self.mpr
        intro a ha
        have := surv_aux_idx_ge bs (i + 1) a ha
        simp only [decide_eq_true_eq]
        omega
      rw [hlhs]
      by_cases hf : b.isF = true
      · rw [surv_aux_cons, if_pos hf, List.filter_cons, if_neg (by simp)]
        exact hrest.symm
      · rw [surv_aux_cons, if_neg hf]
        exact hrest.symm
    | succ k =>
      have hidx : i + 1 + k = i + (k + 1) := by omega
      by_cases hf : b.isF = true
      · have hlhs : surv_aux i (clear_at (b :: bs) (k + 1)) =
            (⟨i, b.ft, b.high, b.low⟩ : Item) :: surv_aux (i + 1) (clear_at bs k) := by
          show surv_aux i (b :: clear_at bs k) = _
          rw [surv_aux_cons, if_pos hf]
        rw [hlhs, surv_aux_cons, if_pos hf, List.filter_cons,
          if_pos (by simp only [decide_eq_true_eq]; omega)]
        rw [ih (i + 1) k, hidx]
      · have hlhs : surv_aux i (clear_at (b :: bs) (k + 1)) =
            surv_aux (i + 1) (clear_at bs k) := by
          show surv_aux i (b :: clear_at bs k) = _
          rw [surv_aux_cons, if_neg hf]
        rw [hlhs, surv_aux_cons, if_neg hf, ih (i + 1) k, hidx]

theorem surv_aux_apply_clears (m : List MBar) (l : List Nat) :
    surv_aux 0 (apply_clears m l) =
      (surv_aux 0 m).filter (fun x => decide (x.idx ∉ l)) := by
  induction l generalizing m with
  | nil =>
    show surv_aux 0 m = _
    symm
    apply List.filter_eq_self.mpr
    intro a _
    simp
  | cons a l ih =>
    show surv_aux 0 (apply_clears (clear_at m a) l) = _
    rw [ih (clear_at m a), surv_aux_clear_at m 0 a, List.filter_filter]
    apply List.filter_congr
    intro x _
    have hiff : (x.idx ∉ a :: l) ↔ (x.idx ∉ l ∧ x.idx ≠ 0 + a) := by
      simp only [List.mem_cons, not_or, Nat.zero_add]
      tauto
    rw [decide_eq_decide.mpr hiff, ← Bool.decide_and]

theorem chunks_cons (x : Item) (xs : List Item) :
    chunks (x :: xs) =
      match chunks xs with
      | [] => [[x]]
      | c :: cs =>
        match c with
        | [] => [x] :: cs
        | y :: _ => if y.ft = x.ft then (x :: c) :: cs else [x] :: c :: cs := rfl

/-- Splitting off the first chunk: the tail decomposes into the run of
the head's type followed by a rest starting with a different type. -/
theorem chunks_split (x : Item) :
    ∀ xs : List Item, ∃ r rest, xs = r ++ rest ∧ (∀ a ∈ r, a.ft = x.ft) ∧
      (∀ y ys, rest = y :: ys → y.ft ≠ x.ft) ∧
      chunks (x :: xs) = (x :: r) :: chunks rest := by
  intro xs
  induction xs generalizing x with
  | nil =>
    refine ⟨[], [], rfl, by simp, ?_, ?_⟩
    · intro y ys h
      cases h
    · rfl
  | cons y ys ih =>
    rcases ih y with ⟨r', rest', hsplit, hall, hbound, hch⟩
    by_cases hft : y.ft = x.ft
    · refine ⟨y :: r', rest', by simp [hsplit], ?_, ?_, ?_⟩
      · intro a ha
        rcases List.mem_cons.mp ha with h | h
        · subst h
          exact hft
        · exact (hall a h).trans hft
      · intro z zs hz
        exact fun hc => hbound z zs hz (hc.trans hft.symm)
      · rw [chunks_cons x (y :: ys), hch]
        show (if y.ft = x.ft then (x :: y :: r') :: chunks rest'
          else [x] :: (y :: r') :: chunks rest') = (x :: y :: r') :: chunks rest'
        rw [if_pos hft]
    · refine ⟨[], y :: ys, rfl, by simp, ?_, ?_⟩
      · intro z zs hz
        injection hz with h1 _
        subst h1
        exact hft
      · rw [chunks_cons x (y :: ys), hch]
        show (if y.ft = x.ft then (x :: y :: r') :: chunks rest'
          else [x] :: (y :: r') :: chunks rest') = [x] :: (y :: r') :: chunks rest'
        rw [if_neg hft]

theorem chunks_prepend_run (t : Option FT) :
    ∀ (K rest : List Item), K ≠ [] → (∀ a ∈ K, a.ft = t) →
      (∀ y ys, rest = y :: ys → y.ft ≠ t) →
      chunks (K ++ rest) = K :: chunks rest := by
  intro K
  induction K with
  | nil => intro rest h; cases h rfl
  | cons k kr ih =>
    intro rest _ hall hbound
    have hk : k.ft = t := hall k (by simp)
    cases kr with
    | nil =>
      show chunks (k :: rest) = _
      cases rest with
      | nil => rfl
      | cons y ys =>
        rcases chunks_split y ys with ⟨r', rest', _, _, _, hch⟩
        have hne : ¬ y.ft = k.ft := by
          rw [hk]
          exact hbound y ys rfl
        rw [chunks_cons k (y :: ys), hch]
        show (if y.ft = k.ft then (k :: y :: r') :: chunks rest'
          else [k] :: (y :: r') :: chunks rest') = [k] :: (y :: r') :: chunks rest'
        rw [if_neg hne]
    | cons k2 kr2 =>
      have hrec : chunks ((k2 :: kr2) ++ rest) = (k2 :: kr2) :: chunks rest :=
        ih rest (by simp) (fun a ha => hall a (by simp [ha])) hbound
      show chunks (k :: (k2 :: kr2 ++ rest)) = _
      rw [chunks_cons k (k2 :: kr2 ++ rest)]
      rw [show (k2 :: kr2 ++ rest) = (k2 :: kr2) ++ rest from rfl, hrec]
      have heq : k2.ft = k.ft := by
        rw [hk]
        exact hall k2 (by simp)
      simp [heq]

theorem foldl_pick_mem (f : Item → Item → Item)
    (hf : ∀ b y, f b y = b ∨ f b y = y) :
    ∀ (xs : List Item) (b : Item), xs.foldl f b ∈ b :: xs := by
  intro xs
  induction xs with
  | nil => intro b; simp
  | cons y ys ih =>
    intro b
    rw [List.foldl_cons]
    have h1 := ih (f b y)
    rcases List.mem_cons.mp h1 with h | h
    · rw [h]
      rcases hf b y with h2 | h2 <;> rw [h2] <;> simp
    · exact List.mem_cons_of_mem b (List.mem_cons_of_mem y h)

theorem keep_top_mem (x : Item) (xs : List Item) : keep_top x xs ∈ x :: xs := by
  unfold keep_top
  refine foldl_pick_mem _ ?_ xs x
  intro b y
  by_cases h : y.high > b.high <;> simp [h]

theorem keep_bottom_mem (x : Item) (xs : List Item) : keep_bottom x xs ∈ x :: xs := by
  unfold keep_bottom
  refine foldl_pick_mem _ ?_ xs x
  intro b y
  by_cases h : y.low < b.low <;> simp [h]

theorem chunk_clears_subset {c : List Item} {a : Nat} (ha : a ∈ chunk_clears c) :
    ∃ z ∈ c, z.idx = a := by
  unfold chunk_clears at ha
  split at ha
  · cases ha
  split at ha
  · cases ha
  · split at ha
    · cases ha
    · rcases List.mem_filter.mp ha with ⟨hmem, _⟩
      rcases List.mem_map.mp hmem with ⟨z, hz, hza⟩
      exact ⟨z, hz, hza⟩
  · split at ha
    · cases ha
    · rcases List.mem_filter.mp ha with ⟨hmem, _⟩
      rcases List.mem_map.mp hmem with ⟨z, hz, hza⟩
      exact ⟨z, hz, hza⟩

theorem chunks_flatten_aux :
    ∀ (n : Nat) (s : List Item), s.length ≤ n → (chunks s).flatten = s := by
  intro n
  induction n with
  | zero =>
    intro s hs
    have : s = [] := List.eq_nil_of_length_eq_zero (Nat.le_zero.mp hs)
    subst this
    rfl
  | succ n ih =>
    intro s hs
    cases s with
    | nil => rfl
    | cons x xs =>
      rcases chunks_split x xs with ⟨r, rest, hsplit, _, _, hch⟩
      have hlen : rest.length ≤ xs.length := by
        rw [hsplit]
        simp
      have hrest : (chunks rest).flatten = rest := by
        apply ih
        simp only [List.length_cons] at hs
        omega
      rw [hch, List.flatten_cons, hrest, hsplit]
      rfl

theorem chunks_flatten (s : List Item) : (chunks s).flatten = s :=
  chunks_flatten_aux s.length s (le_refl _)

theorem f2_clears_subset {s : List Item} {a : Nat} (ha : a ∈ f2_clears s) :
    ∃ z ∈ s, z.idx = a := by
  unfold f2_clears at ha
  rcases List.mem_flatten.mp ha with ⟨cl, hcl, hacl⟩
  rcases List.mem_map.mp hcl with ⟨c, hc, rfl⟩
  rcases chunk_clears_subset hacl with ⟨z, hz, hza⟩
  refine ⟨z, ?_, hza⟩
  have : c ∈ chunks s := hc
  have hsub : ∀ w ∈ c, w ∈ s := by
    intro w hw
    have hfl : w ∈ (chunks s).flatten := List.mem_flatten.mpr ⟨c, hc, hw⟩
    rwa [chunks_flatten] at hfl
  exact hsub z hz

/-- The marks surviving one F2 pass, at the `Item` level. -/
def f2_survivors (s : List Item) : List Item :=
  s.filter (fun x => decide (x.idx ∉ f2_clears s))

theorem filter_idx_eq_singleton :
    ∀ (c : List Item) (k : Item), c.Pairwise (fun a b => a.idx < b.idx) → k ∈ c →
      c.filter (fun z => decide (z.idx = k.idx)) = [k] := by
  intro c
  induction c with
  | nil => intro k _ hk; cases hk
  | cons a c ih =>
    intro k hp hk
    rcases List.pairwise_cons.mp hp with ⟨ha, hp'⟩
    rcases List.mem_cons.mp hk with h | h
    · subst h
      rw [List.filter_cons, if_pos (by simp)]
      rw [List.filter_eq_nil_iff.mpr ?_]
      intro z hz
      have := ha z hz
      simp only [decide_eq_true_eq]
      omega
    · have hlt : a.idx < k.idx := ha k h
      rw [List.filter_cons, if_neg (by simp only [decide_eq_true_eq]; omega)]
      exact ih k hp' h

theorem chunk_all_ft {x : Item} {r : List Item} (hall : ∀ a ∈ r, a.ft = x.ft) :
    ∀ z ∈ x :: r, z.ft = x.ft := by
  intro z hz
  rcases List.mem_cons.mp hz with h | h
  · rw [h]
  · exact hall z h

theorem chunk_clears_cons (x : Item) (xs : List Item) :
    chunk_clears (x :: xs) =
      match x.ft with
      | none => []
      | some FT.top =>
        if xs = [] then []
        else ((x :: xs).map (·.idx)).filter (fun i => decide (i ≠ (keep_top x xs).idx))
      | some FT.bottom =>
        if xs = [] then []
        else ((x :: xs).map (·.idx)).filter
          (fun i => decide (i ≠ (keep_bottom x xs).idx)) := rfl

/-- The collapse of one chunk by `chunk_clears`: a `None`-typed or
singleton chunk is untouched, any other chunk keeps exactly its
first-wins extreme; in every case the surviving part is nonempty, keeps
the chunk type, and triggers no further clears. -/
theorem chunk_collapse (x : Item) (r : List Item)
    (hall : ∀ a ∈ r, a.ft = x.ft)
    (hp : (x :: r).Pairwise (fun a b => a.idx < b.idx)) :
    ∃ q qs,
      (x :: r).filter (fun z => decide (z.idx ∉ chunk_clears (x :: r))) = q :: qs ∧
      q.ft = x.ft ∧ (∀ z ∈ q :: qs, z.ft = x.ft) ∧ chunk_clears (q :: qs) = [] := by
  have hfilter_all : ∀ l : List Item,
      l.filter (fun z => decide (z.idx ∉ ([] : List Nat))) = l := by
    intro l
    apply List.filter_eq_self.mpr
    intro a _
    simp
  rcases hx : x.ft with _ | t
  · -- None-typed chunk: untouched
    have hcc : chunk_clears (x :: r) = [] := by
      rw [chunk_clears_cons, hx]
    refine ⟨x, r, ?_, hx, ?_, hcc⟩
    · rw [hcc]
      exact hfilter_all _
    · intro z hz
      exact (chunk_all_ft hall z hz).trans hx
  · cases r with
    | nil =>
      have hcc : chunk_clears [x] = [] := by
        rw [chunk_clears_cons, hx]
        cases t <;> simp
      refine ⟨x, [], ?_, hx, ?_, hcc⟩
      · rw [hcc]
        exact hfilter_all _
      · intro z hz
        rcases List.mem_cons.mp hz with h | h
        · rw [h]
          exact hx
        · cases h
    | cons p ps =>
      -- the kept extreme of the run
      have hkeep : ∃ keep : Item, keep ∈ x :: p :: ps ∧
          chunk_clears (x :: p :: ps) =
            ((x :: p :: ps).map (·.idx)).filter (fun i => decide (i ≠ keep.idx)) := by
        cases t with
        | top =>
          refine ⟨keep_top x (p :: ps), keep_top_mem x (p :: ps), ?_⟩
          rw [chunk_clears_cons, hx]
          simp
        | bottom =>
          refine ⟨keep_bottom x (p :: ps), keep_bottom_mem x (p :: ps), ?_⟩
          rw [chunk_clears_cons, hx]
          simp
      rcases hkeep with ⟨keep, hkmem, hcc⟩
      have hkft : keep.ft = some t := (chunk_all_ft hall keep hkmem).trans hx
      have hpoint : ∀ z ∈ x :: p :: ps,
          (decide (z.idx ∉ chunk_clears (x :: p :: ps)) : Bool) =
            decide (z.idx = keep.idx) := by
        intro z hz
        apply decide_eq_decide.mpr
        rw [hcc]
        constructor
        · intro hnot
          by_contra hne'
          apply hnot
          apply List.mem_filter.mpr
          exact ⟨List.mem_map_of_mem (·.idx) hz, by simpa using hne'⟩
        · intro heq hmem
          rcases List.mem_filter.mp hmem with ⟨_, hd⟩
          simp only [decide_eq_true_eq] at hd
          exact hd heq
      refine ⟨keep, [], ?_, hkft, ?_, ?_⟩
      · rw [List.filter_congr hpoint]
        exact filter_idx_eq_singleton _ keep hp hkmem
      · intro z hz
        rcases List.mem_cons.mp hz with h | h
        · rw [h]
          exact hkft
        · cases h
      · rw [chunk_clears_cons, hkft]
        cases t <;> simp

theorem f2_clears_cons_chunk {x : Item} {xs r rest : List Item}
    (hch : chunks (x :: xs) = (x :: r) :: chunks rest) :
    f2_clears (x :: xs) = chunk_clears (x :: r) ++ f2_clears rest := by
  unfold f2_clears
  rw [hch, List.map_cons, List.flatten_cons]

/-- Core fixpoint property of F2: filtering the survivors of one pass
produces no further clears, the survivor list of a nonempty list is
nonempty, and it starts with the type of the original head. -/
theorem f2_survivors_fix :
    ∀ (n : Nat) (s : List Item), s.length ≤ n →
      s.Pairwise (fun a b => a.idx < b.idx) →
      f2_clears (f2_survivors s) = [] ∧
      (∀ z zs, s = z :: zs → ∃ q qs, f2_survivors s = q :: qs ∧ q.ft = z.ft) := by
  intro n
  induction n with
  | zero =>
    intro s hs _
    have : s = [] := List.eq_nil_of_length_eq_zero (Nat.le_zero.mp hs)
    subst this
    exact ⟨rfl, by intro z zs h; cases h⟩
  | succ n ih =>
    intro s hs hp
    cases s with
    | nil => exact ⟨rfl, by intro z zs h; cases h⟩
    | cons x xs =>
      rcases chunks_split x xs with ⟨r, rest, hsplit, hall, hbound, hch⟩
      have hs_eq : x :: xs = (x :: r) ++ rest := by
        rw [hsplit]
        rfl
      have hpair : ((x :: r) ++ rest).Pairwise (fun a b => a.idx < b.idx) := by
        rw [← hs_eq]
        exact hp
      rcases List.pairwise_append.mp hpair with ⟨hpc, hprest, hcross⟩
      have hrest_len : rest.length ≤ n := by
        have h1 : rest.length ≤ xs.length := by
          rw [hsplit]
          simp
        simp only [List.length_cons] at hs
        omega
      have ihrest := ih rest hrest_len hprest
      have hfc := f2_clears_cons_chunk hch
      -- survivors split chunk-wise
      have hsurv : f2_survivors (x :: xs) =
          (x :: r).filter (fun z => decide (z.idx ∉ chunk_clears (x :: r))) ++
            f2_survivors rest := by
        unfold f2_survivors
        rw [hfc]
        conv_lhs => rw [hs_eq]
        rw [List.filter_append]
        congr 1
        · apply List.filter_congr
          intro z hz
          apply decide_eq_decide.mpr
          simp only [List.mem_append, not_or]
          constructor
          · exact fun h => h.1
          · intro h
            refine ⟨h, ?_⟩
            intro hmem
            rcases f2_clears_subset hmem with ⟨w, hw, hwz⟩
            have := hcross z hz w hw
            omega
        · apply List.filter_congr
          intro z hz
          apply decide_eq_decide.mpr
          simp only [List.mem_append, not_or]
          constructor
          · exact fun h => h.2
          · intro h
            refine ⟨?_, h⟩
            intro hmem
            rcases chunk_clears_subset hmem with ⟨w, hw, hwz⟩
            have := hcross w hw z hz
            omega
      rcases chunk_collapse x r hall hpc with ⟨q, qs, hK, hqft, hKall, hKcc⟩
      rw [hK] at hsurv
      -- the rebuilt list chunks as the collapsed chunk followed by the rest
      have hbound' : ∀ y ys, f2_survivors rest = y :: ys → y.ft ≠ x.ft := by
        intro y ys hy
        cases rest with
        | nil =>
          rw [show f2_survivors ([] : List Item) = [] from rfl] at hy
          cases hy
        | cons z zs =>
          rcases ihrest.2 z zs rfl with ⟨q', qs', hq', hq'ft⟩
          rw [hy] at hq'
          injection hq' with h1 _
          rw [← h1] at hq'ft
          rw [hq'ft]
          exact hbound z zs rfl
      have hch2 : chunks ((q :: qs) ++ f2_survivors rest) =
          (q :: qs) :: chunks (f2_survivors rest) := by
        apply chunks_prepend_run x.ft
        · simp
        · exact hKall
        · exact hbound'
      constructor
      · rw [hsurv]
        unfold f2_clears
        rw [hch2, List.map_cons, List.flatten_cons]
        have h2 : f2_clears (f2_survivors rest) = [] := ihrest.1
        unfold f2_clears at h2
        rw [hKcc, h2]
        rfl
      · intro z zs hz
        injection hz with h1 _
        refine ⟨q, qs ++ f2_survivors rest, ?_, ?_⟩
        · rw [hsurv]
          rfl
        · rw [hqft, ← h1]

/-- F2 is idempotent: its survivors form alternating singleton runs, so
a second pass clears nothing. -/
theorem filter_consecutive_idem (m : List MBar) :
    filter_consecutive_fractals (filter_consecutive_fractals m) =
      filter_consecutive_fractals m := by
  have hsurv : surv_items (filter_consecutive_fractals m) =
      f2_survivors (surv_items m) := by
    unfold filter_consecutive_fractals surv_items f2_survivors
    exact surv_aux_apply_clears m _
  have hfix := (f2_survivors_fix (surv_items m).length (surv_items m)
    (le_refl _) (surv_aux_pairwise m 0)).1
  show apply_clears (filter_consecutive_fractals m)
    (f2_clears (surv_items (filter_consecutive_fractals m))) = _
  rw [hsurv, hfix]
  rfl

/-! ## Stability of the chain output under F1 and F2 -/

theorem f3_fold_rem_mono (fidx : List Nat) (ps : List Nat) :
    ∀ st : List MBar × Nat, st.2 ≤ (ps.foldl (f3_step fidx) st).2 := by
  induction ps with
  | nil => intro st; exact le_refl _
  | cons p ps ih =>
    intro st
    rw [List.foldl_cons]
    rcases f3_step_cases fidx st p with h | ⟨i, h⟩
    · rw [h]
      exact ih st
    · rw [h]
      have := ih (clear_at st.1 i, st.2 + 1)
      simp only at this
      omega

theorem f3_fold_rem_zero (fidx : List Nat) (ps : List Nat) :
    ∀ st : List MBar × Nat, (ps.foldl (f3_step fidx) st).2 = st.2 →
      (ps.foldl (f3_step fidx) st).1 = st.1 := by
  induction ps with
  | nil => intro st _; rfl
  | cons p ps ih =>
    intro st heq
    rw [List.foldl_cons] at heq ⊢
    rcases f3_step_cases fidx st p with h | ⟨i, h⟩
    · rw [h] at heq ⊢
      exact ih st heq
    · exfalso
      rw [h] at heq
      have := f3_fold_rem_mono fidx ps (clear_at st.1 i, st.2 + 1)
      simp only at this
      omega

theorem f4_tb_cases (fitems : List Item) (p : Nat) (cur nxt : Item)
    (m : List MBar) (rem : Nat) :
    f4_top_bottom fitems p cur nxt m rem = (m, rem) ∨
      (f4_top_bottom fitems p cur nxt m rem).2 > rem := by
  unfold f4_top_bottom
  split
  · exact Or.inl rfl
  split <;> dsimp only <;> split
  · right; simp
  · split <;> (right; simp)
  · right; simp
  · split <;> (right; simp)

theorem f4_bt_cases (fitems : List Item) (p : Nat) (cur nxt : Item)
    (m : List MBar) (rem : Nat) :
    f4_bottom_top fitems p cur nxt m rem = (m, rem) ∨
      (f4_bottom_top fitems p cur nxt m rem).2 > rem := by
  unfold f4_bottom_top
  split
  · exact Or.inl rfl
  split <;> dsimp only <;> split
  · right; simp
  · split <;> (right; simp)
  · right; simp
  · split <;> (right; simp)

theorem f4_step_cases (fitems : List Item)
    (st : (List MBar × Nat) × List (Nat × Nat)) (p : Nat) :
    ((f4_step fitems st p).1.1 = st.1.1 ∧ (f4_step fitems st p).1.2 = st.1.2) ∨
      (f4_step fitems st p).1.2 > st.1.2 := by
  unfold f4_step
  split
  · split
    · exact Or.inl ⟨rfl, rfl⟩
    split
    · exact Or.inl ⟨rfl, rfl⟩
    dsimp only
    split
    · rcases f4_tb_cases fitems _ _ _ st.1.1 st.1.2 with h | h
      · rw [h]
        exact Or.inl ⟨rfl, rfl⟩
      · exact Or.inr h
    · rcases f4_bt_cases fitems _ _ _ st.1.1 st.1.2 with h | h
      · rw [h]
        exact Or.inl ⟨rfl, rfl⟩
      · exact Or.inr h
    · exact Or.inl ⟨rfl, rfl⟩
  · exact Or.inl ⟨rfl, rfl⟩

theorem f4_fold_rem_mono (fitems : List Item) (ps : List Nat) :
    ∀ st, st.1.2 ≤ (ps.foldl (f4_step fitems) st).1.2 := by
  induction ps with
  | nil => intro st; exact le_refl _
  | cons p ps ih =>
    intro st
    rw [List.foldl_cons]
    rcases f4_step_cases fitems st p with ⟨_, h2⟩ | h
    · exact le_trans (le_of_eq h2.symm) (ih _)
    · exact le_trans (le_of_lt h) (ih _)

theorem f4_fold_rem_zero (fitems : List Item) (ps : List Nat) :
    ∀ st, (ps.foldl (f4_step fitems) st).1.2 = st.1.2 →
      (ps.foldl (f4_step fitems) st).1.1 = st.1.1 := by
  induction ps with
  | nil => intro st _; rfl
  | cons p ps ih =>
    intro st heq
    rw [List.foldl_cons] at heq ⊢
    rcases f4_step_cases fitems st p with ⟨h1, h2⟩ | h
    · rw [ih _ (by rw [heq, h2]), h1]
    · exfalso
      have := f4_fold_rem_mono fitems ps (f4_step fitems st p)
      omega

theorem f2_stable_f3 {m : List MBar}
    (h : filter_consecutive_fractals m = m) :
    filter_consecutive_fractals (validate_fractal_relationships m) =
      validate_fractal_relationships m := by
  unfold validate_fractal_relationships
  dsimp only
  split
  · exact h
  split
  case isTrue h2 => exact filter_consecutive_idem _
  case isFalse h2 =>
    have hz : (((List.range ((surv_items m).map (·.idx)).length).drop 1).foldl
        (f3_step ((surv_items m).map (·.idx))) (m, 0)).2 = 0 := by omega
    rw [f3_fold_rem_zero _ _ (m, 0) hz]
    exact h

theorem f2_stable_f4 {m : List MBar}
    (h : filter_consecutive_fractals m = m) :
    filter_consecutive_fractals (filter_close_fractals m) =
      filter_close_fractals m := by
  unfold filter_close_fractals
  dsimp only
  split
  · exact h
  split
  case isTrue h2 => exact filter_consecutive_idem _
  case isFalse h2 =>
    have hz : ((List.range ((surv_items m).length - 1)).foldl
        (f4_step (surv_items m)) ((m, 0), [])).1.2 = 0 := by omega
    rw [f4_fold_rem_zero _ _ ((m, 0), []) hz]
    exact h

/-- F2 applied to the chain's output is a no-op. -/
theorem f2_stable_chain (m : List MBar) :
    filter_consecutive_fractals (fractal_chain m) = fractal_chain m := by
  unfold fractal_chain
  exact f2_stable_f4 (f2_stable_f3 (f2_stable_f4 (f2_stable_f3
    (filter_consecutive_idem _))))

/-- F1 applied to the chain's output is a no-op: every surviving mark
already sits at its window extremum. -/
theorem f1_stable_chain (m : List MBar) :
    filter_fractals_by_extremes (fractal_chain m) = fractal_chain m := by
  apply List.ext_getElem?
  intro n
  unfold filter_fractals_by_extremes
  rw [f1_go_getElem, Nat.zero_add]
  rcases hn : (fractal_chain m)[n]? with _ | b
  · rfl
  simp only [Option.map_some']
  by_cases hf : b.isF = true
  · have hw := chain_survivor_window hn hf
    unfold f1_at
    rw [if_pos hf]
    rcases hft : b.ft with _ | t
    · rfl
    cases t
    · have hwin := hw.1 hft
      simp [hwin]
    · have hwin := hw.2 hft
      simp [hwin]
  · unfold f1_at
    rw [if_neg hf]

/-! ## Stroke-builder lemmas -/

theorem fractal_aux_idx_ge :
    ∀ (m : List MBar) (i : Nat) (x : FItem), x ∈ fractal_aux i m → i ≤ x.idx := by
  intro m
  induction m with
  | nil => intro i x hx; cases hx
  | cons b bs ih =>
    intro i x hx
    unfold fractal_aux at hx
    split at hx
    · rcases List.mem_cons.mp hx with h | h
      · subst h
        exact le_refl i
      · exact le_trans (Nat.le_succ i) (ih (i + 1) x h)
    · exact le_trans (Nat.le_succ i) (ih (i + 1) x hx)

theorem fractal_aux_pairwise :
    ∀ (m : List MBar) (i : Nat),
      (fractal_aux i m).Pairwise (fun a b => a.idx < b.idx) := by
  intro m
  induction m with
  | nil => intro i; exact List.Pairwise.nil
  | cons b bs ih =>
    intro i
    unfold fractal_aux
    split
    · refine List.pairwise_cons.mpr ⟨?_, ih (i + 1)⟩
      intro y hy
      exact lt_of_lt_of_le (Nat.lt_succ_self i) (fractal_aux_idx_ge bs (i + 1) y hy)
    · exact ih (i + 1)

theorem alt_ft_ne (t : FT) : alt_ft t ≠ t := by
  cases t <;> simp [alt_ft]

theorem keep_alt_subset :
    ∀ (l : List FItem) (e : FT) (x : FItem), x ∈ keep_alt e l → x ∈ l := by
  intro l
  induction l with
  | nil => intro e x hx; cases hx
  | cons y ys ih =>
    intro e x hx
    unfold keep_alt at hx
    split at hx
    · rcases List.mem_cons.mp hx with h | h
      · exact h ▸ List.mem_cons_self y ys
      · exact List.mem_cons_of_mem y (ih (alt_ft e) x h)
    · exact List.mem_cons_of_mem y (ih e x hx)

theorem keep_alt_head :
    ∀ (l : List FItem) (e : FT) (y : FItem) (ys : List FItem),
      keep_alt e l = y :: ys → y.ft = e := by
  intro l
  induction l with
  | nil => intro e y ys h; cases h
  | cons x xs ih =>
    intro e y ys h
    unfold keep_alt at h
    split at h
    case isTrue hx =>
      injection h with h1 _
      rw [← h1]
      exact hx
    case isFalse hx => exact ih e y ys h

/-- The alternation relation maintained along the kept fractal list. -/
def AltRel (a b : FItem) : Prop := a.idx < b.idx ∧ b.ft = alt_ft a.ft

theorem keep_alt_chain :
    ∀ (l : List FItem) (e : FT), l.Pairwise (fun a b => a.idx < b.idx) →
      (keep_alt e l).Chain' AltRel := by
  intro l
  induction l with
  | nil => intro e _; exact List.chain'_nil
  | cons x xs ih =>
    intro e hp
    rcases List.pairwise_cons.mp hp with ⟨hx, hp'⟩
    unfold keep_alt
    split
    case isTrue hft =>
      apply List.chain'_cons'.mpr
      refine ⟨?_, ih (alt_ft e) hp'⟩
      intro y hy
      rcases hh : keep_alt (alt_ft e) xs with _ | ⟨z, zs⟩
      · rw [hh] at hy
        cases hy
      · have hyz : y = z := by
          rw [hh] at hy
          rw [Option.mem_def] at hy
          injection hy with h
          exact h.symm
        rw [← hyz] at hh
        have hymem : y ∈ xs :=
          keep_alt_subset xs (alt_ft e) y (by rw [hh]; exact List.mem_cons_self y zs)
        refine ⟨hx y hymem, ?_⟩
        rw [keep_alt_head xs (alt_ft e) y zs hh, hft]
    case isFalse hft => exact ih e hp'

theorem mk_strokes_props :
    ∀ (K : List FItem) (k : Nat), K.Chain' AltRel →
      (∀ s ∈ mk_strokes k K,
        s.start_type ≠ s.end_type ∧
        (s.direction = Dir.up ↔ s.start_type = FT.bottom) ∧
        s.start_idx < s.end_idx) ∧
      (mk_strokes k K).Chain' (fun s1 s2 => s1.end_idx ≤ s2.start_idx) := by
  intro K
  induction K with
  | nil =>
    intro k _
    refine ⟨?_, List.chain'_nil⟩
    intro s hs
    cases hs
  | cons a K ih =>
    intro k hch
    cases K with
    | nil =>
      refine ⟨?_, List.chain'_nil⟩
      intro s hs
      cases hs
    | cons b rest =>
      rcases List.chain'_cons.mp hch with ⟨⟨hab1, hab2⟩, hch'⟩
      have ihres := ih (k + 1) hch'
      constructor
      · intro s hs
        rcases List.mem_cons.mp hs with h | h
        · subst h
          refine ⟨?_, ?_, hab1⟩
          · show a.ft ≠ b.ft
            rw [hab2]
            exact fun hc => alt_ft_ne a.ft hc.symm
          · show (if a.ft = FT.top then Dir.down else Dir.up) = Dir.up ↔ a.ft = FT.bottom
            cases ha : a.ft <;> simp
        · exact ihres.1 s h
      · apply List.chain'_cons'.mpr
        refine ⟨?_, ihres.2⟩
        intro s2 hs2
        cases rest with
        | nil => cases hs2
        | cons c rest' =>
          have : s2 = mk_stroke (k + 1) b c := by
            have : (mk_strokes (k + 1) (b :: c :: rest')).head? =
                some (mk_stroke (k + 1) b c) := rfl
            rw [this] at hs2
            injection hs2 with h
            exact h.symm
          rw [this]
          exact le_refl b.idx

theorem identify_segments_props (m : List MBar) :
    (∀ s ∈ identify_segments m,
      s.start_type ≠ s.end_type ∧
      (s.direction = Dir.up ↔ s.start_type = FT.bottom) ∧
      s.start_idx < s.end_idx) ∧
    (identify_segments m).Chain' (fun s1 s2 => s1.end_idx ≤ s2.start_idx) := by
  unfold identify_segments
  dsimp only
  split
  · refine ⟨?_, List.chain'_nil⟩
    intro s hs
    cases hs
  split
  · refine ⟨?_, List.chain'_nil⟩
    intro s hs
    cases hs
  case h_2 _ f fs heq =>
    have hpair : (f :: fs).Pairwise (fun a b : FItem => a.idx < b.idx) := by
      rw [← heq]
      exact fractal_aux_pairwise m 0
    rcases List.pairwise_cons.mp hpair with ⟨hf, hp'⟩
    apply mk_strokes_props
    apply List.chain'_cons'.mpr
    refine ⟨?_, keep_alt_chain fs (alt_ft f.ft) hp'⟩
    intro y hy
    rcases hh : keep_alt (alt_ft f.ft) fs with _ | ⟨z, zs⟩
    · rw [hh] at hy
      cases hy
    · have hyz : y = z := by
        rw [hh] at hy
        rw [Option.mem_def] at hy
        injection hy with h
        exact h.symm
      rw [← hyz] at hh
      have hymem : y ∈ fs :=
        keep_alt_subset fs (alt_ft f.ft) y (by rw [hh]; exact List.mem_cons_self y zs)
      exact ⟨hf y hymem, keep_alt_head fs (alt_ft f.ft) y zs hh⟩

/-! ## Mark-column consistency -/

/-- The two mark columns agree: `is_fractal` is set exactly when
`fractal_type` is. -/
def Consistent (m : List MBar) : Prop :=
  ∀ b ∈ m, b.isF = true ↔ b.ft ≠ none

theorem mark_of_consistent (seed : Option Dir) (full : List MBar) (i : Nat) (b : MBar) :
    ((mark_of seed full i b).isF = true ↔ (mark_of seed full i b).ft ≠ none) := by
  unfold mark_of
  split
  · rcases seed with _ | d
    · simp
    · cases d <;> simp
  split
  · simp
  split
  · simp
  · simp

theorem identify_consistent (seed : Option Dir) (full : List MBar) :
    ∀ (i : Nat) (l : List MBar), Consistent (identify_go seed full i l) := by
  intro i l
  induction l generalizing i with
  | nil => intro b hb; cases hb
  | cons x xs ih =>
    intro b hb
    rcases List.mem_cons.mp hb with h | h
    · rw [h]
      exact mark_of_consistent seed full i x
    · exact ih (i + 1) b h

theorem onlyClears_consistent {m m' : List MBar} (h : OnlyClears m m')
    (hc : Consistent m) : Consistent m' := by
  intro b hb
  rcases List.mem_iff_getElem?.mp hb with ⟨n, hn⟩
  rcases h n with h' | h'
  · rw [hn] at h'
    exact hc b (List.mem_iff_getElem?.mpr ⟨n, h'.symm⟩)
  · rw [hn] at h'
    rcases hm : m[n]? with _ | b0
    · rw [hm] at h'
      cases h'
    · rw [hm] at h'
      simp only [Option.map_some'] at h'
      have hb0 : b = clear_mark b0 := by injection h'
      rw [hb0]
      simp [clear_mark]

/-! ## Claim C1 -/

/-- C1 (counterexample): on Scenario B's bars with seed direction up the
merger does *not* return 2 structural bars.  The merged candidate
(high 10, low 6) and the third bar (11, 4) are in containment — the
third bar covers it — so the merger keeps merging and emits a single
structural bar. -/
theorem c1_counterexample :
    check_inclusion 10 6 11 4 = true ∧
    (merge_klines (some Dir.up) scenario_b_bars).length = 1 ∧
    ¬ (merge_klines (some Dir.up) scenario_b_bars).length = 2 := by
  refine ⟨by decide, by decide, by decide⟩

/-- C1 (amended): on Scenario B's bars with seed direction up the merger
first merges bar 0 and bar 1 (direction up, fewer than two emitted bars)
into a candidate with high 10 and low 6; that candidate and bar 2 (11,4)
*are* in containment (bar 2 covers it), so the merger merges again under
direction up — high max(10,11) = 11, low max(6,4) = 6 — and returns
exactly one structural bar (11, 6) tagged up. -/
theorem c1_amended :
    merge_klines (some Dir.up) scenario_b_bars =
      [⟨0, 7, 11, 6, 6, 9, 12, some Dir.up⟩] := by
  decide

/-! ## Claim C2 -/

/-- C2 (code bug exhibit): merging the five bars (20,10), (15,8),
(18,9), (16,7), (19,6) — an input the trimmer itself passes through
unchanged with seed direction down — produces the structural bars
(20,10), (15,8), (18,9), (19,7), and the last two adjacent bars are in
containment: the up-direction merge of (16,7) with (19,6) raises the
candidate's high above the previously emitted bar while its low stays
below, violating the spec's adjacency invariant. -/
theorem c2_code_bug_exhibit :
    trim_data_by_extremes ⟨true, true, true, containment_bug_bars⟩ =
      ⟨containment_bug_bars, some Dir.down⟩ ∧
    (merge_klines (some Dir.down) containment_bug_bars).map (fun s => (s.high, s.low)) =
      [(20, 10), (15, 8), (18, 9), (19, 7)] ∧
    adjacent_free (merge_klines (some Dir.down) containment_bug_bars) = false := by
  refine ⟨by decide, by decide, by decide⟩

/-! ## Claim C3 -/

/-- C3 (code bug exhibit): on an input of zero raw bars the pipeline
does not return an empty output — it raises.  `identify_fractals`
returns the empty frame unchanged, without creating the mark columns,
and `process_fractals` then evaluates
`fractals_df[fractals_df['is_fractal']]`, a `KeyError`. -/
theorem c3_code_bug_exhibit :
    process_klines [] = Except.error "KeyError: is_fractal" := by
  rfl

/-! ## Claim C4 -/

/-- C4 (counterexample): the claim requires the trimmer to fail on empty
input, but `trim_data_by_extremes` never signals an error: on the empty
frame it prints and returns an empty frame (and leaves the seed
direction unset), and on a frame missing a required column it prints and
returns the input unchanged. -/
theorem c4_counterexample :
    trim_call ⟨true, true, true, []⟩ = Except.ok ⟨[], none⟩ ∧
    trim_call ⟨false, true, true, [single_bar]⟩ = Except.ok ⟨[single_bar], none⟩ := by
  exact ⟨rfl, rfl⟩

/-- C4 (amended): the trimmer never signals an error to its caller; on
empty input or input missing any of {datetime, high, low} it returns a
degraded result with no seed direction, and for every non-empty input
having those columns it returns a suffix of its input together with a
seed direction. -/
theorem c4_amended (inp : TrimIn) :
    (trim_call inp).isOk = true ∧
    (inp.bars ≠ [] → inp.hasDatetime = true → inp.hasHigh = true → inp.hasLow = true →
      ∃ k, (trim_data_by_extremes inp).bars = inp.bars.drop k ∧
        (trim_data_by_extremes inp).seed.isSome = true) := by
  constructor
  · rfl
  · intro hne hdt hh hl
    refine ⟨inp.bars.findIdx (fun b => b.datetime =
      min ((inp.bars[inp.bars.findIdx (fun b => b.high = py_max (inp.bars.map (·.high)))]?.map
        (·.datetime)).getD 0)
          ((inp.bars[inp.bars.findIdx (fun b => b.low = py_min (inp.bars.map (·.low)))]?.map
        (·.datetime)).getD 0)), ?_, ?_⟩ <;>
      simp [trim_data_by_extremes, hne, hdt, hh, hl]

/-- C4 (witness): the amended statement applied to Scenario A's bars. -/
theorem c4_witness :
    ∃ k, (trim_data_by_extremes ⟨true, true, true, scenario_a_bars⟩).bars =
        scenario_a_bars.drop k ∧
      (trim_data_by_extremes ⟨true, true, true, scenario_a_bars⟩).seed.isSome = true :=
  (c4_amended ⟨true, true, true, scenario_a_bars⟩).2 (by decide) rfl rfl rfl

/-! ## Claim C5 -/

/-- C5 (counterexample): on a single raw bar `merge_klines` takes the
`len(df) < 2` path and returns the frame unchanged, so the sole output
bar carries *no* direction tag, not the seed direction. -/
theorem c5_counterexample :
    (merge_klines (some Dir.up) [single_bar]).map (·.direction) = [none] ∧
    ¬ (merge_klines (some Dir.up) [single_bar]).map (·.direction) = [some Dir.up] := by
  exact ⟨rfl, by decide⟩

/-- C5 (amended): on a single raw bar the merger returns that bar
unchanged as the sole structural bar, with no direction tag (the source
returns `df.copy()`, which has no `direction` column), for any seed. -/
theorem c5_amended (seed : Option Dir) (b : RawBar) :
    merge_klines seed [b] = [raw_to_sbar b] := by
  rfl

/-! ## Claim C6 -/

/-- C6: after the full filter chain (F1 through F5) every surviving mark
at structural-bar index `i` satisfies the window-extremum property with
W = 4: a surviving top's high is the maximum high of the ±4 window, a
surviving bottom's low its minimum low.  F1 enforces the property and
the later filters only ever clear marks, never create them. -/
theorem c6_window_extremum (m : List MBar) (i : Nat) (b : MBar)
    (h : (fractal_chain m)[i]? = some b) (hf : b.isF = true) :
    (b.ft = some FT.top →
      py_max ((window_slice (fractal_chain m) i).map (·.high)) = b.high) ∧
    (b.ft = some FT.bottom →
      py_min ((window_slice (fractal_chain m) i).map (·.low)) = b.low) :=
  chain_survivor_window h hf

set_option maxRecDepth 8000 in
/-- C6 (witness): on the zigzag input the chain keeps a top at index 2
whose high 100 is the maximum of its ±4 window. -/
theorem c6_witness :
    py_max ((window_slice (fractal_chain zigzag_marks) 2).map (·.high)) =
      (⟨0, 100, 98, true, some FT.top⟩ : MBar).high :=
  (c6_window_extremum zigzag_marks 2 ⟨0, 100, 98, true, some FT.top⟩
    (by decide) (by decide)).1 (by decide)

/-! ## Claim C7 -/

/-- C7: the consecutive-same-type filter F2 is idempotent: applying it
twice yields exactly the same marks as applying it once, for every
structural-bar sequence with marks. -/
theorem c7_f2_idempotent (m : List MBar) :
    filter_consecutive_fractals (filter_consecutive_fractals m) =
      filter_consecutive_fractals m :=
  filter_consecutive_idem m

/-! ## Claim C8 -/

/-- C8: every stroke emitted by the stroke builder has distinct endpoint
types, direction up exactly when it starts at a bottom, and a start
index strictly below its end index; consecutive strokes are
chronologically contiguous. -/
theorem c8_stroke_properties (m : List MBar) :
    (∀ s ∈ identify_segments m,
      s.start_type ≠ s.end_type ∧
      (s.direction = Dir.up ↔ s.start_type = FT.bottom) ∧
      s.start_idx < s.end_idx) ∧
    (identify_segments m).Chain' (fun s1 s2 => s1.end_idx ≤ s2.start_idx) :=
  identify_segments_props m

set_option maxRecDepth 8000 in
/-- C8 (witness): the first stroke the builder emits on the zigzag's
final marks — top@2 down to bottom@4 — satisfies the three per-stroke
properties. -/
theorem c8_witness :
    (⟨0, 2, 4, 0, 0, FT.top, FT.bottom, 100, 10, Dir.down⟩ : Stroke).start_type ≠
        (⟨0, 2, 4, 0, 0, FT.top, FT.bottom, 100, 10, Dir.down⟩ : Stroke).end_type ∧
      ((⟨0, 2, 4, 0, 0, FT.top, FT.bottom, 100, 10, Dir.down⟩ : Stroke).direction = Dir.up ↔
        (⟨0, 2, 4, 0, 0, FT.top, FT.bottom, 100, 10, Dir.down⟩ : Stroke).start_type = FT.bottom) ∧
      (⟨0, 2, 4, 0, 0, FT.top, FT.bottom, 100, 10, Dir.down⟩ : Stroke).start_idx <
        (⟨0, 2, 4, 0, 0, FT.top, FT.bottom, 100, 10, Dir.down⟩ : Stroke).end_idx :=
  (c8_stroke_properties (fractal_chain zigzag_marks)).1
    ⟨0, 2, 4, 0, 0, FT.top, FT.bottom, 100, 10, Dir.down⟩ (by decide)

/-! ## Claim C9 -/

set_option maxRecDepth 8000 in
/-- C9 (counterexample): the full filter chain is not idempotent.  On
the zigzag marks the chain keeps a close top/bottom pair at indices 2
and 4 plus a later pair at 34 and 40; a second application of the chain
resolves the still-close pair (2, 4) again and clears the pair (34, 40),
so the chain applied to its own output is not a no-op. -/
theorem c9_counterexample :
    fractal_chain (fractal_chain zigzag_marks) ≠ fractal_chain zigzag_marks := by
  decide

/-- C9 (amended): a second application of the full chain to its own
output is *not* in general a no-op (see the counterexample); what holds
is that the chain's output is stable under the window filter F1 and the
consecutive-same-type filter F2: re-applying either changes nothing. -/
theorem c9_amended (m : List MBar) :
    filter_fractals_by_extremes (fractal_chain m) = fractal_chain m ∧
    filter_consecutive_fractals (fractal_chain m) = fractal_chain m :=
  ⟨f1_stable_chain m, f2_stable_chain m⟩

/-! ## Claim C10 -/

/-- C10: after the fractal identifier and after every filter stage, the
two mark columns are consistent on every bar: `is_fractal` is true
exactly when `fractal_type` is not `None`, because every operation sets
or clears both fields together. -/
theorem c10_mark_consistency (seed : Option Dir) (m : List MBar) :
    Consistent (identify_fractals seed m) ∧
    Consistent (filter_fractals_by_extremes (identify_fractals seed m)) ∧
    Consistent (filter_consecutive_fractals
      (filter_fractals_by_extremes (identify_fractals seed m))) ∧
    Consistent (validate_fractal_relationships (filter_consecutive_fractals
      (filter_fractals_by_extremes (identify_fractals seed m)))) ∧
    Consistent (filter_close_fractals (validate_fractal_relationships
      (filter_consecutive_fractals
        (filter_fractals_by_extremes (identify_fractals seed m))))) ∧
    Consistent (validate_fractal_relationships (filter_close_fractals
      (validate_fractal_relationships (filter_consecutive_fractals
        (filter_fractals_by_extremes (identify_fractals seed m)))))) ∧
    Consistent (filter_close_fractals (validate_fractal_relationships
      (filter_close_fractals (validate_fractal_relationships
        (filter_consecutive_fractals
          (filter_fractals_by_extremes (identify_fractals seed m))))))) := by
  have h0 : Consistent (identify_fractals seed m) :=
    identify_consistent seed m 0 m
  have h1 := onlyClears_consistent (onlyClears_f1 _) h0
  have h2 := onlyClears_consistent (onlyClears_f2 _) h1
  have h3 := onlyClears_consistent (onlyClears_f3 _) h2
  have h4 := onlyClears_consistent (onlyClears_f4 _) h3
  have h5 := onlyClears_consistent (onlyClears_f3 _) h4
  have h6 := onlyClears_consistent (onlyClears_f4 _) h5
  exact ⟨h0, h1, h2, h3, h4, h5, h6⟩

end Chanlun
